import Mathlib

/-!
Verification of the `rb` ring-buffer family (RingBase / RingBuffer / RingQueue).

Shallow embedding conventions:

* The shared state of both variants (`RingBase` storage plus cursors) is the
  structure `State`: the element array `buff_` becomes a `List`, and the two
  `std::atomic<size_t>` cursors `head_` / `tail_` become `Nat` fields.
  The cursors are modelled as mathematical naturals: every masked view
  `x & (N-1)` that the code uses agrees between `size_t` arithmetic
  (mod 2^64) and `Nat` because `N` is a power of two dividing 2^64, and the
  spec treats the cursors as counters that "only ever increase".
* `buff_[i]` becomes `List.getD i default` (the array is default-initialized
  in the source, so `default` matches the initial contents) and in-place
  assignment becomes `List.set`.
* Memory orderings and `notify_all` calls have no effect on the
  single-thread functional state and are dropped; `wait` (parking) is
  modelled explicitly where a claim needs it: a blocking operation whose
  condition fails returns `none` (parked forever, since in the sequential
  model no counterpart thread can change the state).
* `assert` (active in debug builds) is modelled by `Except Unit`:
  `Except.error ()` is an assertion failure, `Except.ok` a normal return.
* `x & size_mask_` is transcribed literally as `x &&& (N - 1)`.
-/

/-- Shared state of `RingBase<T, size_>`: element storage plus the two
cursors `head_` (write cursor) and `tail_` (read cursor). -/
structure State (T : Type) where
  buff : List T
  head : Nat
  tail : Nat
deriving DecidableEq

/-- Fresh `RingBase` state: `buff_` value-initialized, both cursors zero. -/
def initState (T : Type) [Inhabited T] (N : Nat) : State T :=
  ⟨List.replicate N default, 0, 0⟩

namespace RingBase

/-- `RingBase::is_full`: `(head_+1) & size_mask_ == tail_ & size_mask_`. -/
def is_full (N : Nat) {T : Type} (s : State T) : Bool :=
  ((s.head + 1) &&& (N - 1)) == (s.tail &&& (N - 1))

/-- `RingBase::is_empty`: `head_ & size_mask_ == tail_ & size_mask_`. -/
def is_empty (N : Nat) {T : Type} (s : State T) : Bool :=
  (s.head &&& (N - 1)) == (s.tail &&& (N - 1))

end RingBase

namespace RingBuffer

variable {T : Type} [Inhabited T]

/-- `RingBuffer::write`: fails (returning `false`, state untouched) when
full; otherwise stores at `head_ & size_mask_` and advances `head_`. -/
def write (N : Nat) (s : State T) (v : T) : Bool × State T :=
  if RingBase.is_full N s then (false, s)
  else (true, { s with buff := s.buff.set (s.head &&& (N - 1)) v, head := s.head + 1 })

/-- `RingBuffer::overwrite`: when full first advances `tail_`, then always
stores at `head_ & size_mask_` and advances `head_`. -/
def overwrite (N : Nat) (s : State T) (v : T) : State T :=
  let s1 := if RingBase.is_full N s then { s with tail := s.tail + 1 } else s
  { s1 with buff := s1.buff.set (s1.head &&& (N - 1)) v, head := s1.head + 1 }

/-- `RingBuffer::read`: empty yields `nullopt` and no mutation; otherwise
returns `buff_[tail_ & size_mask_]` and advances `tail_`. -/
def read (N : Nat) (s : State T) : Option T × State T :=
  let lhead := s.head &&& (N - 1)
  let ltail := s.tail &&& (N - 1)
  if lhead == ltail then (none, s)
  else (some (s.buff.getD ltail default), { s with tail := s.tail + 1 })

/-- `RingBuffer::try_current` (a `const` member: it cannot mutate the
state): `nullopt` when empty, else the value at `tail_ & size_mask_`. -/
def try_current (N : Nat) (s : State T) : Option T :=
  if (s.head &&& (N - 1)) == (s.tail &&& (N - 1)) then none
  else some (s.buff.getD (s.tail &&& (N - 1)) default)

/-- `RingBuffer::current` (a `const` member): parks when empty (`none` in
the sequential model), else the value at `tail_ & size_mask_`. -/
def current (N : Nat) (s : State T) : Option T :=
  if (s.head &&& (N - 1)) == (s.tail &&& (N - 1)) then none
  else some (s.buff.getD (s.tail &&& (N - 1)) default)

end RingBuffer

namespace RingQueue

variable {T : Type} [Inhabited T]

/-- `RingQueue::enqueue`: `none` models parking forever on the full
condition (sequentially nothing can change it); otherwise stores at
`head_ & size_mask_` and advances `head_`. -/
def enqueue (N : Nat) (s : State T) (v : T) : Option (State T) :=
  if ((s.head + 1) &&& (N - 1)) == (s.tail &&& (N - 1)) then none
  else some { s with buff := s.buff.set (s.head &&& (N - 1)) v, head := s.head + 1 }

/-- Continuation of `RingQueue::enqueue` after its single `tail_.wait`
returns (source lines 33-39): the store at the pre-wait `lhead` slot and
the `head_` advance run unconditionally, with no re-check of the full
condition. `s` is the state observed at wake time (the producer owns
`head_`, so `lhead` still equals `s.head`). -/
def enqueue_on_wake (N : Nat) (s : State T) (v : T) : State T :=
  { s with buff := s.buff.set (s.head &&& (N - 1)) v, head := s.head + 1 }

/-- `RingQueue::try_enqueue`: returns `false` without mutation when full,
else stores and advances `head_`. -/
def try_enqueue (N : Nat) (s : State T) (v : T) : Bool × State T :=
  if ((s.head + 1) &&& (N - 1)) == (s.tail &&& (N - 1)) then (false, s)
  else (true, { s with buff := s.buff.set (s.head &&& (N - 1)) v, head := s.head + 1 })

/-- `RingQueue::dequeue`: `none` models parking forever on the empty
condition; otherwise returns `buff_[tail_ & size_mask_]` (the code reloads
`tail_` after the wait; sequentially it is unchanged) and advances
`tail_`. -/
def dequeue (N : Nat) (s : State T) : Option (T × State T) :=
  if (s.head &&& (N - 1)) == (s.tail &&& (N - 1)) then none
  else some (s.buff.getD (s.tail &&& (N - 1)) default, { s with tail := s.tail + 1 })

/-- Continuation of `RingQueue::dequeue` after its single `head_.wait`
returns (source lines 71-74): it reads the slot and advances `tail_`
unconditionally, with no re-check of the empty condition. -/
def dequeue_on_wake (N : Nat) (s : State T) : T × State T :=
  (s.buff.getD (s.tail &&& (N - 1)) default, { s with tail := s.tail + 1 })

/-- `RingQueue::try_dequeue` (the `notify_all` does not change the
state): `nullopt` without mutation when empty, else the value at
`tail_ & size_mask_` with `tail_` advanced. -/
def try_dequeue (N : Nat) (s : State T) : Option T × State T :=
  let lhead := s.head &&& (N - 1)
  let ltail := s.tail &&& (N - 1)
  if lhead == ltail then (none, s)
  else (some (s.buff.getD ltail default), { s with tail := s.tail + 1 })

/-- `RingQueue::try_current` (a `const` member): `nullopt` when empty,
else the value at `tail_ & size_mask_`. -/
def try_current (N : Nat) (s : State T) : Option T :=
  if (s.head &&& (N - 1)) == (s.tail &&& (N - 1)) then none
  else some (s.buff.getD (s.tail &&& (N - 1)) default)

/-- `RingQueue::current` (a `const` member): parks when empty (`none` in
the sequential model), else the value at `tail_ & size_mask_`. -/
def current (N : Nat) (s : State T) : Option T :=
  if (s.head &&& (N - 1)) == (s.tail &&& (N - 1)) then none
  else some (s.buff.getD (s.tail &&& (N - 1)) default)

/-- `RingQueue::can_peek`: `assert(amnt < size_)` fires first (modelled as
`Except.error ()`); then the wraparound-aware `max_distance` is computed
from the masked cursors and `amnt < max_distance` is returned. -/
def can_peek (N : Nat) (s : State T) (amnt : Nat) : Except Unit Bool :=
  let lhead := s.head &&& (N - 1)
  let ltail := s.tail &&& (N - 1)
  if amnt < N then
    let max_distance := if lhead ≥ ltail then lhead - ltail else (N - ltail) + lhead
    Except.ok (decide (amnt < max_distance))
  else Except.error ()

/-- `RingQueue::try_peek`: computes `max_distance` from the masked cursors
and returns `nullopt` when `amnt >= max_distance` — note this early return
precedes both asserts; only on the success path are
`assert(amnt < size_)` and `assert(((ltail + amnt) & size_mask_) < size_)`
evaluated, then `buff_[(ltail + amnt) & size_mask_]` is returned. -/
def try_peek (N : Nat) (s : State T) (amnt : Nat) : Except Unit (Option T) :=
  let lhead := s.head &&& (N - 1)
  let ltail := s.tail &&& (N - 1)
  let max_distance := if lhead ≥ ltail then lhead - ltail else (N - ltail) + lhead
  if amnt ≥ max_distance then Except.ok none
  else if amnt < N then
    if ((ltail + amnt) &&& (N - 1)) < N then
      Except.ok (some (s.buff.getD ((ltail + amnt) &&& (N - 1)) default))
    else Except.error ()
  else Except.error ()

/-- `RingQueue::peek`: loads `ltail` once, then loops
`while(!can_peek(amnt)) head_.wait(...)`. An assertion failure inside
`can_peek` propagates; a false condition parks forever in the sequential
model (`Except.ok none`); a true condition returns
`buff_[(ltail + amnt) & size_mask_]`. -/
def peek (N : Nat) (s : State T) (amnt : Nat) : Except Unit (Option T) :=
  let ltail := s.tail &&& (N - 1)
  match can_peek N s amnt with
  | Except.error e => Except.error e
  | Except.ok true => Except.ok (some (s.buff.getD ((ltail + amnt) &&& (N - 1)) default))
  | Except.ok false => Except.ok none

/-- `RingQueue::wake_all`: notifications only; the state is unchanged. -/
def wake_all (s : State T) : State T := s

end RingQueue

/-- Bridge between the source's bitmask indexing and modular arithmetic:
for the power-of-two sizes admitted by `RingBase`'s `static_assert`,
`x & (size_ - 1)` is `x mod size_`. -/
theorem mask_eq_mod (N : Nat) (hp : ∃ k, N = 2 ^ k) (x : Nat) :
    x &&& (N - 1) = x % N := by
  obtain ⟨k, rfl⟩ := hp
  exact Nat.and_pow_two_sub_one_eq_mod x k

/-- Structural invariant of a buffer state: the storage has the
compile-time length `size_`, the write cursor is at or ahead of the read
cursor, and at most `size_ - 1` elements are pending. -/
def Good (N : Nat) {T : Type} (s : State T) : Prop :=
  s.buff.length = N ∧ s.tail ≤ s.head ∧ s.head - s.tail ≤ N - 1

instance (N : Nat) {T : Type} (s : State T) : Decidable (Good N s) := by
  unfold Good; infer_instance

/-- The cursor part of the invariant, as the spec states it: the unsigned
difference between write cursor and read cursor lies in `[0, size_ - 1]`. -/
def CursorInv (N : Nat) {T : Type} (s : State T) : Prop :=
  s.tail ≤ s.head ∧ s.head - s.tail ≤ N - 1

instance (N : Nat) {T : Type} (s : State T) : Decidable (CursorInv N s) := by
  unfold CursorInv; infer_instance

/-- The sequence of unread (pending) elements: the slot contents from the
read cursor (inclusive) up to the write cursor (exclusive), in FIFO
order. -/
def pendingOf (N : Nat) {T : Type} [Inhabited T] (s : State T) : List T :=
  (List.range (s.head - s.tail)).map (fun i => s.buff.getD ((s.tail + i) % N) default)

theorem pendingOf_length (N : Nat) {T : Type} [Inhabited T] (s : State T) :
    (pendingOf N s).length = s.head - s.tail := by
  simp [pendingOf]

theorem add_mod_cancel_iff (t a b M : Nat) :
    ((t + a) % M = (t + b) % M) ↔ a % M = b % M := by
  constructor
  · exact fun h => Nat.ModEq.add_left_cancel' t h
  · exact fun h => Nat.ModEq.add_left t h

/-- Under the cursor invariant, `is_full` detects exactly the state with
`size_ - 1` pending elements. -/
theorem is_full_iff (N : Nat) (hp : ∃ k, N = 2 ^ k) (h1 : 1 < N)
    {T : Type} (s : State T) (hc : s.tail ≤ s.head) (hd : s.head - s.tail ≤ N - 1) :
    RingBase.is_full N s = true ↔ s.head - s.tail = N - 1 := by
  unfold RingBase.is_full
  rw [mask_eq_mod N hp, mask_eq_mod N hp, beq_iff_eq]
  obtain ⟨d, hdef⟩ : ∃ d, s.head = s.tail + d := ⟨s.head - s.tail, by omega⟩
  have hd' : d ≤ N - 1 := by omega
  rw [hdef, show s.tail + d + 1 = s.tail + (d + 1) by omega]
  conv_lhs => rw [show s.tail % N = (s.tail + 0) % N by simp]
  rw [add_mod_cancel_iff, Nat.zero_mod]
  constructor
  · intro h
    have hdvd : N ∣ (d + 1) := (Nat.dvd_iff_mod_eq_zero).mpr h
    have := Nat.le_of_dvd (by omega) hdvd
    omega
  · intro h
    have : d + 1 = N := by omega
    simp [this]

/-- Under the cursor invariant, `is_empty` detects exactly the state with
equal cursors (no pending elements). -/
theorem is_empty_iff (N : Nat) (hp : ∃ k, N = 2 ^ k) (h1 : 1 < N)
    {T : Type} (s : State T) (hc : s.tail ≤ s.head) (hd : s.head - s.tail ≤ N - 1) :
    RingBase.is_empty N s = true ↔ s.head = s.tail := by
  unfold RingBase.is_empty
  rw [mask_eq_mod N hp, mask_eq_mod N hp, beq_iff_eq]
  obtain ⟨d, hdef⟩ : ∃ d, s.head = s.tail + d := ⟨s.head - s.tail, by omega⟩
  have hd' : d ≤ N - 1 := by omega
  rw [hdef]
  conv_lhs => rw [show s.tail % N = (s.tail + 0) % N by simp]
  rw [add_mod_cancel_iff, Nat.zero_mod]
  rw [Nat.mod_eq_of_lt (by omega)]
  omega

theorem mod_add_ne (N a i j : Nat) (hij : i < j) (hj : j < N) :
    (a + i) % N ≠ (a + j) % N := by
  intro h
  rw [add_mod_cancel_iff] at h
  rw [Nat.mod_eq_of_lt (by omega), Nat.mod_eq_of_lt hj] at h
  omega

theorem getD_set_same {T : Type} [Inhabited T] (l : List T) (i : Nat) (a : T)
    (h : i < l.length) : (l.set i a).getD i default = a := by
  simp [List.getD_eq_getElem?_getD, List.getElem?_set_self, h]

theorem getD_set_diff {T : Type} [Inhabited T] (l : List T) (i j : Nat) (a : T)
    (h : i ≠ j) : (l.set i a).getD j default = l.getD j default := by
  simp [List.getD_eq_getElem?_getD, List.getElem?_set_ne h]


/-- A non-full `write` succeeds, keeps the invariant, advances only the
write cursor and appends the written value to the pending sequence. -/
theorem write_step (N : Nat) (hp : ∃ k, N = 2 ^ k) (h1 : 1 < N)
    {T : Type} [Inhabited T] (s : State T) (v : T)
    (hg : Good N s) (hnf : RingBase.is_full N s = false) :
    (RingBuffer.write N s v).1 = true ∧
    Good N (RingBuffer.write N s v).2 ∧
    (RingBuffer.write N s v).2.head = s.head + 1 ∧
    (RingBuffer.write N s v).2.tail = s.tail ∧
    pendingOf N (RingBuffer.write N s v).2 = pendingOf N s ++ [v] := by
  obtain ⟨hlen, hc, hd⟩ := hg
  obtain ⟨d, hdef⟩ : ∃ d, s.head = s.tail + d := ⟨s.head - s.tail, by omega⟩
  have hne : s.head - s.tail ≠ N - 1 := by
    intro h
    rw [(is_full_iff N hp h1 s hc hd).mpr h] at hnf
    exact Bool.true_eq_false.mp hnf
  have hdN : d ≤ N - 2 := by omega
  have hw : RingBuffer.write N s v
      = (true, ⟨s.buff.set (s.head &&& (N - 1)) v, s.head + 1, s.tail⟩) := by
    unfold RingBuffer.write
    rw [hnf]
    rfl
  rw [hw]
  refine ⟨rfl, ⟨by simpa using hlen, by simp; omega, by simp; omega⟩, rfl, rfl, ?_⟩
  show (List.range (s.head + 1 - s.tail)).map
      (fun i => (s.buff.set (s.head &&& (N - 1)) v).getD ((s.tail + i) % N) default)
    = pendingOf N s ++ [v]
  rw [mask_eq_mod N hp, show s.head + 1 - s.tail = d + 1 by omega,
    List.range_succ, List.map_append]
  unfold pendingOf
  rw [show s.head - s.tail = d by omega]
  congr 1
  · apply List.map_congr_left
    intro i hi
    have hi' : i < d := List.mem_range.mp hi
    apply getD_set_diff
    rw [hdef]
    exact (mod_add_ne N s.tail i d hi' (by omega)).symm
  · simp only [List.map_cons, List.map_nil]
    congr 1
    rw [hdef]
    exact getD_set_same _ _ _ (by rw [hlen]; exact Nat.mod_lt _ (by omega))

/-- Decomposition of a nonempty pending sequence into its oldest element
and the rest. -/
theorem pendingOf_cons (N : Nat) {T : Type} [Inhabited T] (s : State T)
    (d : Nat) (hdef : s.head = s.tail + d) (hd1 : 1 ≤ d) :
    pendingOf N s
      = s.buff.getD (s.tail % N) default ::
        (List.range (d - 1)).map
          (fun i => s.buff.getD ((s.tail + 1 + i) % N) default) := by
  unfold pendingOf
  rw [show s.head - s.tail = d by omega, show d = (d - 1) + 1 by omega,
    List.range_succ_eq_map, List.map_cons, List.map_map]
  congr 1
  apply List.map_congr_left
  intro i hi
  show s.buff.getD ((s.tail + Nat.succ i) % N) default
      = s.buff.getD ((s.tail + 1 + i) % N) default
  rw [show s.tail + Nat.succ i = s.tail + 1 + i by omega]

/-- `read` on an empty buffer returns `none` and changes nothing; the
pending sequence is empty. -/
theorem read_step_empty (N : Nat) (hp : ∃ k, N = 2 ^ k) (h1 : 1 < N)
    {T : Type} [Inhabited T] (s : State T)
    (hg : Good N s) (he : RingBase.is_empty N s = true) :
    RingBuffer.read N s = (none, s) ∧ pendingOf N s = [] := by
  obtain ⟨hlen, hc, hd⟩ := hg
  have heq : s.head = s.tail := (is_empty_iff N hp h1 s hc hd).mp he
  unfold RingBase.is_empty at he
  constructor
  · simp only [RingBuffer.read, he]
    rfl
  · unfold pendingOf
    rw [heq]
    simp

/-- `read` on a non-empty buffer returns the head of the pending
sequence, keeps the invariant, advances only the read cursor and drops
the returned element from the pending sequence. -/
theorem read_step_nonempty (N : Nat) (hp : ∃ k, N = 2 ^ k) (h1 : 1 < N)
    {T : Type} [Inhabited T] (s : State T)
    (hg : Good N s) (he : RingBase.is_empty N s = false) :
    (RingBuffer.read N s).1 = some ((pendingOf N s).getD 0 default) ∧
    Good N (RingBuffer.read N s).2 ∧
    (RingBuffer.read N s).2.head = s.head ∧
    (RingBuffer.read N s).2.tail = s.tail + 1 ∧
    pendingOf N (RingBuffer.read N s).2 = (pendingOf N s).drop 1 := by
  obtain ⟨hlen, hc, hd⟩ := hg
  have hne : s.head ≠ s.tail := by
    intro h
    rw [(is_empty_iff N hp h1 s hc hd).mpr h] at he
    exact Bool.true_eq_false.mp he
  obtain ⟨d, hdef⟩ : ∃ d, s.head = s.tail + d := ⟨s.head - s.tail, by omega⟩
  have hd1 : 1 ≤ d := by omega
  have hbe := he
  unfold RingBase.is_empty at hbe
  have hr : RingBuffer.read N s
      = (some (s.buff.getD (s.tail &&& (N - 1)) default), ⟨s.buff, s.head, s.tail + 1⟩) := by
    simp only [RingBuffer.read, hbe]
    rfl
  have hpend := pendingOf_cons N s d hdef hd1
  rw [hr]
  refine ⟨?_, ⟨by simpa using hlen, by simp; omega, by simp; omega⟩, rfl, rfl, ?_⟩
  · rw [hpend, mask_eq_mod N hp]
    simp
  · rw [hpend, List.drop_one, List.tail_cons]
    show (List.range (s.head - (s.tail + 1))).map
        (fun i => s.buff.getD ((s.tail + 1 + i) % N) default) = _
    rw [show s.head - (s.tail + 1) = d - 1 by omega]

/-- `overwrite` on a full buffer advances both cursors, stores at the old
write-cursor slot, keeps the buffer full, and turns the pending sequence
`p` into `p.drop 1 ++ [v]` — the oldest unread element is discarded. -/
theorem overwrite_step_full (N : Nat) (hp : ∃ k, N = 2 ^ k) (h1 : 1 < N)
    {T : Type} [Inhabited T] (s : State T) (v : T)
    (hg : Good N s) (hf : RingBase.is_full N s = true) :
    (RingBuffer.overwrite N s v).head = s.head + 1 ∧
    (RingBuffer.overwrite N s v).tail = s.tail + 1 ∧
    (RingBuffer.overwrite N s v).buff = s.buff.set (s.head &&& (N - 1)) v ∧
    Good N (RingBuffer.overwrite N s v) ∧
    RingBase.is_full N (RingBuffer.overwrite N s v) = true ∧
    pendingOf N (RingBuffer.overwrite N s v) = (pendingOf N s).drop 1 ++ [v] := by
  obtain ⟨hlen, hc, hd⟩ := hg
  have hdd : s.head - s.tail = N - 1 := (is_full_iff N hp h1 s hc hd).mp hf
  obtain ⟨d, hdef⟩ : ∃ d, s.head = s.tail + d := ⟨s.head - s.tail, by omega⟩
  have hdN : d = N - 1 := by omega
  have hd1 : 1 ≤ d := by omega
  have ho : RingBuffer.overwrite N s v
      = ⟨s.buff.set (s.head &&& (N - 1)) v, s.head + 1, s.tail + 1⟩ := by
    simp only [RingBuffer.overwrite, hf]
    rfl
  rw [ho]
  refine ⟨rfl, rfl, rfl, ⟨by simpa using hlen, by simp; omega, by simp; omega⟩, ?_, ?_⟩
  · apply (is_full_iff N hp h1 _ (by simp; omega) (by simp; omega)).mpr
    show s.head + 1 - (s.tail + 1) = N - 1
    omega
  · rw [pendingOf_cons N s d hdef hd1, List.drop_one, List.tail_cons]
    show (List.range (s.head + 1 - (s.tail + 1))).map
        (fun i => (s.buff.set (s.head &&& (N - 1)) v).getD ((s.tail + 1 + i) % N) default)
      = _
    rw [mask_eq_mod N hp, show s.head + 1 - (s.tail + 1) = d by omega,
      show d = (d - 1) + 1 by omega, List.range_succ, List.map_append]
    congr 1
    · apply List.map_congr_left
      intro i hi
      have hi' : i < d - 1 := List.mem_range.mp hi
      apply getD_set_diff
      rw [hdef, show s.tail + 1 + i = s.tail + (1 + i) by omega]
      exact (mod_add_ne N s.tail (1 + i) d (by omega) (by omega)).symm
    · simp only [List.map_cons, List.map_nil]
      congr 1
      rw [show s.tail + 1 + (d - 1) = s.tail + d by omega, ← hdef]
      exact getD_set_same _ _ _ (by rw [hlen]; exact Nat.mod_lt _ (by omega))

/-- When the buffer is not full, `overwrite` performs exactly the same
store-and-advance as `write`. -/
theorem overwrite_eq_write_of_notfull (N : Nat) {T : Type} [Inhabited T]
    (s : State T) (v : T) (hnf : RingBase.is_full N s = false) :
    RingBuffer.overwrite N s v = (RingBuffer.write N s v).2 := by
  simp only [RingBuffer.overwrite, RingBuffer.write, hnf]
  rfl

theorem initState_good (N : Nat) {T : Type} [Inhabited T] :
    Good N (initState T N) := by
  refine ⟨by simp [initState], by simp [initState], by simp [initState]⟩

theorem write_good (N : Nat) (hp : ∃ k, N = 2 ^ k) (h1 : 1 < N)
    {T : Type} [Inhabited T] (s : State T) (v : T) (hg : Good N s) :
    Good N (RingBuffer.write N s v).2 := by
  by_cases h : RingBase.is_full N s = true
  · simp only [RingBuffer.write, h]
    exact hg
  · have h' : RingBase.is_full N s = false := by
      revert h; cases RingBase.is_full N s <;> simp
    exact (write_step N hp h1 s v hg h').2.1

theorem overwrite_good (N : Nat) (hp : ∃ k, N = 2 ^ k) (h1 : 1 < N)
    {T : Type} [Inhabited T] (s : State T) (v : T) (hg : Good N s) :
    Good N (RingBuffer.overwrite N s v) := by
  by_cases h : RingBase.is_full N s = true
  · exact (overwrite_step_full N hp h1 s v hg h).2.2.2.1
  · have h' : RingBase.is_full N s = false := by
      revert h; cases RingBase.is_full N s <;> simp
    rw [overwrite_eq_write_of_notfull N s v h']
    exact (write_step N hp h1 s v hg h').2.1

theorem read_good (N : Nat) (hp : ∃ k, N = 2 ^ k) (h1 : 1 < N)
    {T : Type} [Inhabited T] (s : State T) (hg : Good N s) :
    Good N (RingBuffer.read N s).2 := by
  by_cases h : RingBase.is_empty N s = true
  · rw [(read_step_empty N hp h1 s hg h).1]
    exact hg
  · have h' : RingBase.is_empty N s = false := by
      revert h; cases RingBase.is_empty N s <;> simp
    exact (read_step_nonempty N hp h1 s hg h').2.1

/-- An operation on the overwrite buffer, for reachability traces. -/
inductive BufOp (T : Type) where
  | wr (v : T)
  | ow (v : T)
  | rd
deriving DecidableEq

/-- Run a sequence of overwrite-buffer operations. -/
def runB (N : Nat) {T : Type} [Inhabited T] : List (BufOp T) → State T → State T
  | [], s => s
  | BufOp.wr v :: ops, s => runB N ops (RingBuffer.write N s v).2
  | BufOp.ow v :: ops, s => runB N ops (RingBuffer.overwrite N s v)
  | BufOp.rd :: ops, s => runB N ops (RingBuffer.read N s).2

/-- A state of the overwrite buffer reachable from construction. -/
def Reachable (N : Nat) {T : Type} [Inhabited T] (s : State T) : Prop :=
  ∃ ops : List (BufOp T), runB N ops (initState T N) = s

theorem runB_good (N : Nat) (hp : ∃ k, N = 2 ^ k) (h1 : 1 < N)
    {T : Type} [Inhabited T] :
    ∀ (ops : List (BufOp T)) (s : State T), Good N s → Good N (runB N ops s)
  | [], _, hg => hg
  | BufOp.wr v :: ops, s, hg =>
      runB_good N hp h1 ops _ (write_good N hp h1 s v hg)
  | BufOp.ow v :: ops, s, hg =>
      runB_good N hp h1 ops _ (overwrite_good N hp h1 s v hg)
  | BufOp.rd :: ops, s, hg =>
      runB_good N hp h1 ops _ (read_good N hp h1 s hg)

/-- Every reachable overwrite-buffer state satisfies the structural
invariant. -/
theorem reachable_good (N : Nat) (hp : ∃ k, N = 2 ^ k) (h1 : 1 < N)
    {T : Type} [Inhabited T] (s : State T) (hr : Reachable N s) : Good N s := by
  obtain ⟨ops, hops⟩ := hr
  rw [← hops]
  exact runB_good N hp h1 ops _ (initState_good N)

/-- A `write`/`read` call in a capacity-respecting trace. -/
inductive Op (T : Type) where
  | wr (v : T)
  | rd
deriving DecidableEq

/-- Run a sequence of `write`/`read` calls, collecting the final state,
the values of successful writes and the values of successful reads (both
in call order). -/
def runOps (N : Nat) {T : Type} [Inhabited T] :
    List (Op T) → State T → State T × List T × List T
  | [], s => (s, [], [])
  | Op.wr v :: ops, s =>
      ((runOps N ops (RingBuffer.write N s v).2).1,
       if (RingBuffer.write N s v).1
       then v :: (runOps N ops (RingBuffer.write N s v).2).2.1
       else (runOps N ops (RingBuffer.write N s v).2).2.1,
       (runOps N ops (RingBuffer.write N s v).2).2.2)
  | Op.rd :: ops, s =>
      ((runOps N ops (RingBuffer.read N s).2).1,
       (runOps N ops (RingBuffer.read N s).2).2.1,
       match (RingBuffer.read N s).1 with
       | some v => v :: (runOps N ops (RingBuffer.read N s).2).2.2
       | none => (runOps N ops (RingBuffer.read N s).2).2.2)

/-- A trace respects capacity when no `write` is attempted while the
buffer is full. -/
def admissible (N : Nat) {T : Type} [Inhabited T] : List (Op T) → State T → Bool
  | [], _ => true
  | Op.wr v :: ops, s =>
      !RingBase.is_full N s && admissible N ops (RingBuffer.write N s v).2
  | Op.rd :: ops, s => admissible N ops (RingBuffer.read N s).2

theorem cons_getD_drop {T : Type} [Inhabited T] (l : List T) (h : l ≠ []) :
    l.getD 0 default :: l.drop 1 = l := by
  cases l with
  | nil => exact absurd rfl h
  | cons a t => rfl

/-- Trace invariant: along any capacity-respecting trace, the reads so
far followed by the still-pending elements are the initial pending
elements followed by the writes so far. -/
theorem runOps_spec (N : Nat) (hp : ∃ k, N = 2 ^ k) (h1 : 1 < N)
    {T : Type} [Inhabited T] :
    ∀ (ops : List (Op T)) (s : State T), Good N s → admissible N ops s = true →
      Good N (runOps N ops s).1 ∧
      (runOps N ops s).2.2 ++ pendingOf N (runOps N ops s).1
        = pendingOf N s ++ (runOps N ops s).2.1 := by
  intro ops
  induction ops with
  | nil =>
    intro s hg _
    exact ⟨hg, by simp [runOps]⟩
  | cons op ops ih =>
    intro s hg hadm
    cases op with
    | wr v =>
      rw [admissible, Bool.and_eq_true, Bool.not_eq_eq_eq_not, Bool.not_true] at hadm
      obtain ⟨hnf, hadm'⟩ := hadm
      obtain ⟨hok, hg', hh, ht, hpend⟩ := write_step N hp h1 s v hg hnf
      obtain ⟨ihg, iheq⟩ := ih (RingBuffer.write N s v).2 hg' hadm'
      simp only [runOps, hok, if_true]
      refine ⟨ihg, ?_⟩
      rw [iheq, hpend, List.append_assoc]
      rfl
    | rd =>
      rw [admissible] at hadm
      by_cases hemp : RingBase.is_empty N s = true
      · obtain ⟨hre, hpe⟩ := read_step_empty N hp h1 s hg hemp
        have hr2 : (RingBuffer.read N s).2 = s := by rw [hre]
        have hr1 : (RingBuffer.read N s).1 = none := by rw [hre]
        rw [hr2] at hadm
        obtain ⟨ihg, iheq⟩ := ih s hg hadm
        simp only [runOps, hr1, hr2]
        exact ⟨ihg, iheq⟩
      · have hemp' : RingBase.is_empty N s = false := by
          revert hemp; cases RingBase.is_empty N s <;> simp
        obtain ⟨hr1, hg', hh, ht, hpend⟩ := read_step_nonempty N hp h1 s hg hemp'
        obtain ⟨ihg, iheq⟩ := ih (RingBuffer.read N s).2 hg' hadm
        simp only [runOps, hr1]
        refine ⟨ihg, ?_⟩
        have hne : pendingOf N s ≠ [] := by
          intro hx
          have := pendingOf_length N s
          rw [hx] at this
          have hdpos : s.head ≠ s.tail := by
            intro h
            rw [(is_empty_iff N hp h1 s hg.2.1 hg.2.2).mpr h] at hemp'
            exact Bool.true_eq_false.mp hemp'
          simp at this
          have hc := hg.2.1
          omega
        calc (pendingOf N s).getD 0 default :: (runOps N ops (RingBuffer.read N s).2).2.2
              ++ pendingOf N (runOps N ops (RingBuffer.read N s).2).1
            = (pendingOf N s).getD 0 default ::
                ((runOps N ops (RingBuffer.read N s).2).2.2
                  ++ pendingOf N (runOps N ops (RingBuffer.read N s).2).1) := rfl
          _ = (pendingOf N s).getD 0 default ::
                (pendingOf N (RingBuffer.read N s).2
                  ++ (runOps N ops (RingBuffer.read N s).2).2.1) := by rw [iheq]
          _ = (pendingOf N s).getD 0 default ::
                ((pendingOf N s).drop 1
                  ++ (runOps N ops (RingBuffer.read N s).2).2.1) := by rw [hpend]
          _ = ((pendingOf N s).getD 0 default :: (pendingOf N s).drop 1)
                  ++ (runOps N ops (RingBuffer.read N s).2).2.1 := rfl
          _ = pendingOf N s ++ (runOps N ops (RingBuffer.read N s).2).2.1 := by
                rw [cons_getD_drop _ hne]

/-- C1: for the overwrite buffer, over every sequence of `write`/`read`
calls in which no write is attempted while the buffer is full, the values
produced by successful reads are exactly the values passed to successful
writes, in order, each returned exactly once: the read sequence followed
by the still-pending (unread) values equals the write sequence, so the
reads are precisely the first `k` writes (`k` = number of successful
reads) with no loss and no duplication. -/
theorem ringbuffer_fifo_exactly_once {T : Type} [Inhabited T] (N : Nat)
    (hp : ∃ k, N = 2 ^ k) (h1 : 1 < N) (ops : List (Op T))
    (hadm : admissible N ops (initState T N) = true) :
    (runOps N ops (initState T N)).2.2 ++ pendingOf N (runOps N ops (initState T N)).1
      = (runOps N ops (initState T N)).2.1 ∧
    (runOps N ops (initState T N)).2.2
      = ((runOps N ops (initState T N)).2.1).take
          (runOps N ops (initState T N)).2.2.length := by
  have h := runOps_spec N hp h1 ops (initState T N) (initState_good N) hadm
  have hpi : pendingOf N (initState T N) = [] := by
    simp [pendingOf, initState]
  rw [hpi] at h
  obtain ⟨-, heq⟩ := h
  simp only [List.nil_append] at heq
  refine ⟨heq, ?_⟩
  rw [← heq, List.take_left]

theorem ringbuffer_fifo_exactly_once_witness :
    admissible 4 [Op.wr 10, Op.wr 20, Op.rd, Op.wr 30, Op.rd, Op.rd]
        (initState Nat 4) = true ∧
    ((runOps 4 [Op.wr 10, Op.wr 20, Op.rd, Op.wr 30, Op.rd, Op.rd]
        (initState Nat 4)).2.2
      ++ pendingOf 4 (runOps 4 [Op.wr 10, Op.wr 20, Op.rd, Op.wr 30, Op.rd, Op.rd]
        (initState Nat 4)).1
      = (runOps 4 [Op.wr 10, Op.wr 20, Op.rd, Op.wr 30, Op.rd, Op.rd]
        (initState Nat 4)).2.1 ∧
    (runOps 4 [Op.wr 10, Op.wr 20, Op.rd, Op.wr 30, Op.rd, Op.rd]
        (initState Nat 4)).2.2
      = ((runOps 4 [Op.wr 10, Op.wr 20, Op.rd, Op.wr 30, Op.rd, Op.rd]
        (initState Nat 4)).2.1).take
          (runOps 4 [Op.wr 10, Op.wr 20, Op.rd, Op.wr 30, Op.rd, Op.rd]
        (initState Nat 4)).2.2.length) :=
  ⟨by decide,
   ringbuffer_fifo_exactly_once 4 ⟨2, rfl⟩ (by decide)
     [Op.wr 10, Op.wr 20, Op.rd, Op.wr 30, Op.rd, Op.rd] (by decide)⟩

/-- C2: on every reachable full state of the overwrite buffer,
`overwrite(value)` succeeds: it advances the read cursor by one
(discarding the oldest unread element from the pending sequence), stores
the value at the write-cursor slot and advances the write cursor; the
buffer is still full afterwards, and — whenever a second-oldest element
exists, i.e. at least two elements were pending — the next `read`
returns the element that was second-oldest before the overwrite. -/
theorem overwrite_on_full_spec {T : Type} [Inhabited T] (N : Nat)
    (hp : ∃ k, N = 2 ^ k) (h1 : 1 < N) (s : State T) (v : T)
    (hreach : Reachable N s) (hfull : RingBase.is_full N s = true) :
    (RingBuffer.overwrite N s v).tail = s.tail + 1 ∧
    (RingBuffer.overwrite N s v).head = s.head + 1 ∧
    (RingBuffer.overwrite N s v).buff = s.buff.set (s.head &&& (N - 1)) v ∧
    RingBase.is_full N (RingBuffer.overwrite N s v) = true ∧
    pendingOf N (RingBuffer.overwrite N s v) = (pendingOf N s).drop 1 ++ [v] ∧
    (2 ≤ (pendingOf N s).length →
      (RingBuffer.read N (RingBuffer.overwrite N s v)).1
        = some ((pendingOf N s).getD 1 default)) := by
  have hg := reachable_good N hp h1 s hreach
  obtain ⟨hh, ht, hbuf, hg', hf', hpend⟩ := overwrite_step_full N hp h1 s v hg hfull
  refine ⟨ht, hh, hbuf, hf', hpend, ?_⟩
  intro h2
  have hemp' : RingBase.is_empty N (RingBuffer.overwrite N s v) = false := by
    by_cases hx : RingBase.is_empty N (RingBuffer.overwrite N s v) = true
    · exfalso
      have heq := (is_empty_iff N hp h1 _ hg'.2.1 hg'.2.2).mp hx
      have hlen2 := pendingOf_length N (RingBuffer.overwrite N s v)
      rw [hpend] at hlen2
      have : (pendingOf N s).drop 1 ++ [v] ≠ [] := by simp
      have hlen3 : ((pendingOf N s).drop 1 ++ [v]).length = 0 := by omega
      simp at hlen3
    · revert hx; cases RingBase.is_empty N (RingBuffer.overwrite N s v) <;> simp
  have hr := (read_step_nonempty N hp h1 _ hg' hemp').1
  rw [hr, hpend]
  have hlp : 1 ≤ ((pendingOf N s).drop 1).length := by
    simp
    omega
  congr 1
  rw [List.getD_append _ _ _ _ (by omega)]
  cases hpe : pendingOf N s with
  | nil => simp [hpe] at h2
  | cons a t =>
    simp only [List.drop_one, List.tail_cons]
    cases t with
    | nil => simp [hpe] at h2
    | cons b u => rfl

theorem overwrite_on_full_spec_witness :
    RingBase.is_full 4 (⟨[1, 2, 3, 0], 3, 0⟩ : State Nat) = true ∧
    ((RingBuffer.overwrite 4 (⟨[1, 2, 3, 0], 3, 0⟩ : State Nat) 5).tail = 0 + 1 ∧
     (RingBuffer.overwrite 4 (⟨[1, 2, 3, 0], 3, 0⟩ : State Nat) 5).head = 3 + 1 ∧
     (RingBuffer.overwrite 4 (⟨[1, 2, 3, 0], 3, 0⟩ : State Nat) 5).buff
       = [1, 2, 3, 0].set (3 &&& (4 - 1)) 5 ∧
     RingBase.is_full 4 (RingBuffer.overwrite 4 (⟨[1, 2, 3, 0], 3, 0⟩ : State Nat) 5)
       = true ∧
     pendingOf 4 (RingBuffer.overwrite 4 (⟨[1, 2, 3, 0], 3, 0⟩ : State Nat) 5)
       = (pendingOf 4 (⟨[1, 2, 3, 0], 3, 0⟩ : State Nat)).drop 1 ++ [5] ∧
     (RingBuffer.read 4 (RingBuffer.overwrite 4 (⟨[1, 2, 3, 0], 3, 0⟩ : State Nat) 5)).1
       = some ((pendingOf 4 (⟨[1, 2, 3, 0], 3, 0⟩ : State Nat)).getD 1 default)) :=
  have h := overwrite_on_full_spec 4 ⟨2, rfl⟩ (by decide)
    (⟨[1, 2, 3, 0], 3, 0⟩ : State Nat) 5
    ⟨[BufOp.wr 1, BufOp.wr 2, BufOp.wr 3], by decide⟩ (by decide)
  ⟨by decide, h.1, h.2.1, h.2.2.1, h.2.2.2.1, h.2.2.2.2.1, h.2.2.2.2.2 (by decide)⟩

/-- Run a sequence of `write` calls, collecting each call's boolean
result and the final state. -/
def writeAll (N : Nat) {T : Type} [Inhabited T] : List T → State T → List Bool × State T
  | [], s => ([], s)
  | v :: vs, s =>
      ((RingBuffer.write N s v).1 :: (writeAll N vs (RingBuffer.write N s v).2).1,
       (writeAll N vs (RingBuffer.write N s v).2).2)

theorem writeAll_spec (N : Nat) (hp : ∃ k, N = 2 ^ k) (h1 : 1 < N)
    {T : Type} [Inhabited T] :
    ∀ (vs : List T) (s : State T), Good N s →
      (pendingOf N s).length + vs.length ≤ N - 1 →
      (writeAll N vs s).1 = List.replicate vs.length true ∧
      Good N (writeAll N vs s).2 ∧
      pendingOf N (writeAll N vs s).2 = pendingOf N s ++ vs := by
  intro vs
  induction vs with
  | nil =>
    intro s hg _
    exact ⟨rfl, hg, by simp [writeAll]⟩
  | cons v vs ih =>
    intro s hg hroom
    have hplen := pendingOf_length N s
    have hnf : RingBase.is_full N s = false := by
      by_cases hx : RingBase.is_full N s = true
      · exfalso
        have := (is_full_iff N hp h1 s hg.2.1 hg.2.2).mp hx
        simp at hroom
        omega
      · revert hx; cases RingBase.is_full N s <;> simp
    obtain ⟨hok, hg', hh, ht, hpend⟩ := write_step N hp h1 s v hg hnf
    have hroom' : (pendingOf N (RingBuffer.write N s v).2).length + vs.length ≤ N - 1 := by
      rw [hpend]
      simp at hroom ⊢
      omega
    obtain ⟨ihok, ihg, ihpend⟩ := ih (RingBuffer.write N s v).2 hg' hroom'
    refine ⟨?_, ihg, ?_⟩
    · show (RingBuffer.write N s v).1 :: (writeAll N vs (RingBuffer.write N s v).2).1 = _
      rw [hok, ihok]
      rfl
    · show pendingOf N (writeAll N vs (RingBuffer.write N s v).2).2 = _
      rw [ihpend, hpend, List.append_assoc]
      rfl

/-- C3: starting from a freshly constructed overwrite buffer of capacity
`N`, the first `N - 1` writes each succeed and leave the buffer full; the
`N`-th `write` fails (returns `false` and changes nothing), while
`overwrite` in that full state completes and drops the oldest element
(the pending sequence becomes the last `N - 2` written values followed by
the overwritten one). -/
theorem capacity_writes_spec {T : Type} [Inhabited T] (N : Nat)
    (hp : ∃ k, N = 2 ^ k) (h1 : 1 < N) (vs : List T) (w : T)
    (hlen : vs.length = N - 1) :
    (writeAll N vs (initState T N)).1 = List.replicate (N - 1) true ∧
    RingBase.is_full N (writeAll N vs (initState T N)).2 = true ∧
    (RingBuffer.write N (writeAll N vs (initState T N)).2 w).1 = false ∧
    (RingBuffer.write N (writeAll N vs (initState T N)).2 w).2
      = (writeAll N vs (initState T N)).2 ∧
    pendingOf N (writeAll N vs (initState T N)).2 = vs ∧
    pendingOf N (RingBuffer.overwrite N (writeAll N vs (initState T N)).2 w)
      = vs.drop 1 ++ [w] := by
  have hpi : pendingOf N (initState T N) = [] := by
    simp [pendingOf, initState]
  have hroom : (pendingOf N (initState T N)).length + vs.length ≤ N - 1 := by
    rw [hpi, hlen]
    simp
  obtain ⟨hoks, hg, hpend⟩ := writeAll_spec N hp h1 vs (initState T N)
    (initState_good N) hroom
  rw [hpi, List.nil_append] at hpend
  rw [hlen] at hoks
  have hfull : RingBase.is_full N (writeAll N vs (initState T N)).2 = true := by
    apply (is_full_iff N hp h1 _ hg.2.1 hg.2.2).mpr
    have := pendingOf_length N (writeAll N vs (initState T N)).2
    rw [hpend, hlen] at this
    omega
  have hwfail : RingBuffer.write N (writeAll N vs (initState T N)).2 w
      = (false, (writeAll N vs (initState T N)).2) := by
    simp only [RingBuffer.write, hfull]
    rfl
  refine ⟨hoks, hfull, by rw [hwfail], by rw [hwfail], hpend, ?_⟩
  have := (overwrite_step_full N hp h1 _ w hg hfull).2.2.2.2.2
  rw [hpend] at this
  exact this

theorem capacity_writes_spec_witness :
    ([1, 2, 3] : List Nat).length = 4 - 1 ∧
    ((writeAll 4 [1, 2, 3] (initState Nat 4)).1 = List.replicate (4 - 1) true ∧
     RingBase.is_full 4 (writeAll 4 [1, 2, 3] (initState Nat 4)).2 = true ∧
     (RingBuffer.write 4 (writeAll 4 [1, 2, 3] (initState Nat 4)).2 9).1 = false ∧
     (RingBuffer.write 4 (writeAll 4 [1, 2, 3] (initState Nat 4)).2 9).2
       = (writeAll 4 [1, 2, 3] (initState Nat 4)).2 ∧
     pendingOf 4 (writeAll 4 [1, 2, 3] (initState Nat 4)).2 = [1, 2, 3] ∧
     pendingOf 4 (RingBuffer.overwrite 4 (writeAll 4 [1, 2, 3] (initState Nat 4)).2 9)
       = ([1, 2, 3] : List Nat).drop 1 ++ [9]) :=
  ⟨by decide, capacity_writes_spec 4 ⟨2, rfl⟩ (by decide) [1, 2, 3] 9 (by decide)⟩

/-- C4: non-blocking operations fail atomically. On a full state, `write`
and `try_enqueue` return `false` and leave the cursors and storage
untouched; on an empty state, `read`, `try_dequeue`, the two
`try_current`s and `try_peek` return an empty result and leave the
cursors and storage untouched (the `try_current` and `try_peek` paths
return no state at all because the source functions never store). -/
theorem nonblocking_fail_atomic {T : Type} [Inhabited T] (N : Nat)
    (s : State T) (v : T) (amnt : Nat) :
    (RingBase.is_full N s = true →
      RingBuffer.write N s v = (false, s) ∧
      RingQueue.try_enqueue N s v = (false, s)) ∧
    (RingBase.is_empty N s = true →
      RingBuffer.read N s = (none, s) ∧
      RingQueue.try_dequeue N s = (none, s) ∧
      RingBuffer.try_current N s = none ∧
      RingQueue.try_current N s = none ∧
      RingQueue.try_peek N s amnt = Except.ok none) := by
  constructor
  · intro hful
    have hc := hful
    unfold RingBase.is_full at hc
    constructor
    · simp [RingBuffer.write, hful]
    · simp [RingQueue.try_enqueue, hc]
  · intro hemp
    have hc := hemp
    unfold RingBase.is_empty at hc
    have hEq : s.head &&& (N - 1) = s.tail &&& (N - 1) := by
      simpa using hc
    refine ⟨?_, ?_, ?_, ?_, ?_⟩
    · simp [RingBuffer.read, hc]
    · simp [RingQueue.try_dequeue, hc]
    · simp [RingBuffer.try_current, hc]
    · simp [RingQueue.try_current, hc]
    · simp only [RingQueue.try_peek, hEq]
      simp

theorem nonblocking_fail_atomic_witness :
    (RingBase.is_full 4 (⟨[1, 2, 3, 0], 3, 0⟩ : State Nat) = true ∧
      RingBuffer.write 4 (⟨[1, 2, 3, 0], 3, 0⟩ : State Nat) 7
        = (false, (⟨[1, 2, 3, 0], 3, 0⟩ : State Nat)) ∧
      RingQueue.try_enqueue 4 (⟨[1, 2, 3, 0], 3, 0⟩ : State Nat) 7
        = (false, (⟨[1, 2, 3, 0], 3, 0⟩ : State Nat))) ∧
    (RingBase.is_empty 4 (initState Nat 4) = true ∧
      RingBuffer.read 4 (initState Nat 4) = (none, initState Nat 4) ∧
      RingQueue.try_dequeue 4 (initState Nat 4) = (none, initState Nat 4) ∧
      RingBuffer.try_current 4 (initState Nat 4) = none ∧
      RingQueue.try_current 4 (initState Nat 4) = none ∧
      RingQueue.try_peek 4 (initState Nat 4) 1 = Except.ok none) :=
  ⟨⟨by decide,
    (nonblocking_fail_atomic 4 (⟨[1, 2, 3, 0], 3, 0⟩ : State Nat) 7 1).1 (by decide)⟩,
   ⟨by decide,
    (nonblocking_fail_atomic 4 (initState Nat 4) 7 1).2 (by decide)⟩⟩

/-- The wraparound-aware count of currently available (unread) elements,
exactly as `can_peek`/`try_peek` compute their `max_distance`: the
difference of the masked cursors when `write_cursor_masked >=
read_cursor_masked`, and `(N - read_cursor_masked) + write_cursor_masked`
otherwise. -/
def available (N : Nat) {T : Type} (s : State T) : Nat :=
  if (s.head &&& (N - 1)) ≥ (s.tail &&& (N - 1))
  then (s.head &&& (N - 1)) - (s.tail &&& (N - 1))
  else (N - (s.tail &&& (N - 1))) + (s.head &&& (N - 1))

theorem available_le (N : Nat) (h1 : 1 < N) {T : Type} (s : State T) :
    available N s ≤ N - 1 := by
  unfold available
  have ha : s.head &&& (N - 1) ≤ N - 1 := Nat.and_le_right
  have hb : s.tail &&& (N - 1) ≤ N - 1 := Nat.and_le_right
  by_cases h : (s.head &&& (N - 1)) ≥ (s.tail &&& (N - 1))
  · rw [if_pos h]
    omega
  · rw [if_neg h]
    omega

theorem can_peek_eq (N : Nat) {T : Type} [Inhabited T] (s : State T)
    (amnt : Nat) (hlt : amnt < N) :
    RingQueue.can_peek N s amnt = Except.ok (decide (amnt < available N s)) := by
  simp only [RingQueue.can_peek, available]
  rw [if_pos hlt]

/-- C5: for every queue state and `amount < capacity`, `can_peek(amount)`
returns normally and is `true` exactly when at least `amount + 1` unread
elements are available per the wraparound-aware count; it is true at the
boundary `amount = available - 1` and false at `amount = available`. -/
theorem can_peek_spec {T : Type} [Inhabited T] (N : Nat) (h1 : 1 < N)
    (s : State T) (amnt : Nat) (hlt : amnt < N) :
    (RingQueue.can_peek N s amnt = Except.ok true ↔ amnt + 1 ≤ available N s) ∧
    (RingQueue.can_peek N s amnt = Except.ok false ↔ available N s ≤ amnt) ∧
    available N s ≤ N - 1 ∧
    (0 < available N s →
      RingQueue.can_peek N s (available N s - 1) = Except.ok true) ∧
    RingQueue.can_peek N s (available N s) = Except.ok false := by
  have hav := available_le N h1 s
  refine ⟨?_, ?_, hav, ?_, ?_⟩
  · rw [can_peek_eq N s amnt hlt]
    simp only [Except.ok.injEq, decide_eq_true_eq]
    omega
  · rw [can_peek_eq N s amnt hlt]
    simp only [Except.ok.injEq]
    constructor
    · intro h
      have := of_decide_eq_false h
      omega
    · intro h
      apply decide_eq_false
      omega
  · intro hpos
    rw [can_peek_eq N s _ (by omega)]
    have : available N s - 1 < available N s := by omega
    simp [this]
  · rw [can_peek_eq N s _ (by omega)]
    simp

theorem can_peek_spec_witness :
    2 < 4 ∧
    ((RingQueue.can_peek 4 (⟨[1, 2, 3, 0], 3, 0⟩ : State Nat) 2 = Except.ok true
        ↔ 2 + 1 ≤ available 4 (⟨[1, 2, 3, 0], 3, 0⟩ : State Nat)) ∧
     (RingQueue.can_peek 4 (⟨[1, 2, 3, 0], 3, 0⟩ : State Nat) 2 = Except.ok false
        ↔ available 4 (⟨[1, 2, 3, 0], 3, 0⟩ : State Nat) ≤ 2) ∧
     available 4 (⟨[1, 2, 3, 0], 3, 0⟩ : State Nat) ≤ 4 - 1 ∧
     RingQueue.can_peek 4 (⟨[1, 2, 3, 0], 3, 0⟩ : State Nat)
       (available 4 (⟨[1, 2, 3, 0], 3, 0⟩ : State Nat) - 1) = Except.ok true ∧
     RingQueue.can_peek 4 (⟨[1, 2, 3, 0], 3, 0⟩ : State Nat)
       (available 4 (⟨[1, 2, 3, 0], 3, 0⟩ : State Nat)) = Except.ok false) :=
  have h := can_peek_spec 4 (by decide) (⟨[1, 2, 3, 0], 3, 0⟩ : State Nat) 2 (by decide)
  ⟨by decide, h.1, h.2.1, h.2.2.1, h.2.2.2.1 (by decide), h.2.2.2.2⟩

/-- C6: for every queue state and every `amount`, `try_peek(amount)`
returns (without assertion failure, and without touching the cursors —
the function's only effect is its return value) the element `amount`
positions ahead of the read cursor with wraparound indexing when at
least `amount + 1` unread elements are available, and an empty result
otherwise. -/
theorem try_peek_spec {T : Type} [Inhabited T] (N : Nat)
    (hp : ∃ k, N = 2 ^ k) (h1 : 1 < N) (s : State T) (amnt : Nat) :
    (amnt + 1 ≤ available N s →
      RingQueue.try_peek N s amnt
        = Except.ok (some (s.buff.getD ((s.tail + amnt) % N) default))) ∧
    (available N s ≤ amnt →
      RingQueue.try_peek N s amnt = Except.ok none) := by
  have hfold : (if (s.head &&& (N - 1)) ≥ (s.tail &&& (N - 1))
      then (s.head &&& (N - 1)) - (s.tail &&& (N - 1))
      else (N - (s.tail &&& (N - 1))) + (s.head &&& (N - 1))) = available N s := rfl
  constructor
  · intro h
    have hav := available_le N h1 s
    simp only [RingQueue.try_peek, hfold]
    rw [if_neg (by omega)]
    rw [if_pos (by omega)]
    rw [if_pos (show ((s.tail &&& (N - 1)) + amnt) &&& (N - 1) < N by
      have := Nat.and_le_right (n := (s.tail &&& (N - 1)) + amnt) (m := N - 1)
      omega)]
    rw [mask_eq_mod N hp, mask_eq_mod N hp, Nat.mod_add_mod]
  · intro h
    simp only [RingQueue.try_peek, hfold]
    rw [if_pos (by omega)]

theorem try_peek_spec_witness :
    (1 + 1 ≤ available 4 (⟨[1, 2, 3, 0], 3, 0⟩ : State Nat) ∧
      RingQueue.try_peek 4 (⟨[1, 2, 3, 0], 3, 0⟩ : State Nat) 1
        = Except.ok (some (([1, 2, 3, 0] : List Nat).getD ((0 + 1) % 4) default))) ∧
    (available 4 (⟨[1, 2, 3, 0], 3, 0⟩ : State Nat) ≤ 7 ∧
      RingQueue.try_peek 4 (⟨[1, 2, 3, 0], 3, 0⟩ : State Nat) 7 = Except.ok none) :=
  ⟨⟨by decide,
    (try_peek_spec 4 ⟨2, rfl⟩ (by decide) (⟨[1, 2, 3, 0], 3, 0⟩ : State Nat) 1).1
      (by decide)⟩,
   ⟨by decide,
    (try_peek_spec 4 ⟨2, rfl⟩ (by decide) (⟨[1, 2, 3, 0], 3, 0⟩ : State Nat) 7).2
      (by decide)⟩⟩

theorem cursorinv_push (N : Nat) (hp : ∃ k, N = 2 ^ k) (h1 : 1 < N)
    {T : Type} (s : State T) (h : CursorInv N s)
    (hf : RingBase.is_full N s = false) :
    s.tail ≤ s.head + 1 ∧ s.head + 1 - s.tail ≤ N - 1 := by
  have hne : s.head - s.tail ≠ N - 1 := by
    intro hx
    rw [(is_full_iff N hp h1 s h.1 h.2).mpr hx] at hf
    exact Bool.true_eq_false.mp hf
  have := h.1
  have := h.2
  omega

theorem cursorinv_pop (N : Nat) (hp : ∃ k, N = 2 ^ k) (h1 : 1 < N)
    {T : Type} (s : State T) (h : CursorInv N s)
    (he : RingBase.is_empty N s = false) :
    s.tail + 1 ≤ s.head := by
  have hne : s.head ≠ s.tail := by
    intro hx
    rw [(is_empty_iff N hp h1 s h.1 h.2).mpr hx] at he
    exact Bool.true_eq_false.mp he
  have := h.1
  omega

/-- One call of any public operation of either variant, used to state the
whole-interface cursor invariant. -/
inductive AnyOp (T : Type) where
  | bwrite (v : T)
  | boverwrite (v : T)
  | bread
  | btry_current
  | bcurrent
  | qenqueue (v : T)
  | qtry_enqueue (v : T)
  | qdequeue
  | qtry_dequeue
  | qtry_current
  | qcurrent
  | qcan_peek (amnt : Nat)
  | qtry_peek (amnt : Nat)
  | qpeek (amnt : Nat)
  | qwake_all
deriving DecidableEq

/-- State effect of one call. Blocking calls whose condition fails park
forever in the sequential model and thus leave the state unchanged; the
`current`/`try_current`/`can_peek`/`try_peek`/`peek` family never stores
(the first two are `const` member functions, the peeks only read), so
their state effect is the identity. -/
def applyAnyOp (N : Nat) {T : Type} [Inhabited T] : AnyOp T → State T → State T
  | AnyOp.bwrite v, s => (RingBuffer.write N s v).2
  | AnyOp.boverwrite v, s => RingBuffer.overwrite N s v
  | AnyOp.bread, s => (RingBuffer.read N s).2
  | AnyOp.btry_current, s => s
  | AnyOp.bcurrent, s => s
  | AnyOp.qenqueue v, s =>
      match RingQueue.enqueue N s v with
      | some s' => s'
      | none => s
  | AnyOp.qtry_enqueue v, s => (RingQueue.try_enqueue N s v).2
  | AnyOp.qdequeue, s =>
      match RingQueue.dequeue N s with
      | some r => r.2
      | none => s
  | AnyOp.qtry_dequeue, s => (RingQueue.try_dequeue N s).2
  | AnyOp.qtry_current, s => s
  | AnyOp.qcurrent, s => s
  | AnyOp.qcan_peek _, s => s
  | AnyOp.qtry_peek _, s => s
  | AnyOp.qpeek _, s => s
  | AnyOp.qwake_all, s => RingQueue.wake_all s

/-- C7: from construction (both cursors zero) the cursor invariant
`write_cursor - read_cursor ∈ [0, N - 1]` holds, every operation of both
variants preserves it, and no operation ever decreases a cursor: each
call leaves each cursor unchanged or increments it by one. -/
theorem cursor_invariant_preserved {T : Type} [Inhabited T] (N : Nat)
    (hp : ∃ k, N = 2 ^ k) (h1 : 1 < N) :
    CursorInv N (initState T N) ∧
    ∀ (op : AnyOp T) (s : State T), CursorInv N s →
      CursorInv N (applyAnyOp N op s) ∧
      ((applyAnyOp N op s).head = s.head ∨ (applyAnyOp N op s).head = s.head + 1) ∧
      ((applyAnyOp N op s).tail = s.tail ∨ (applyAnyOp N op s).tail = s.tail + 1) := by
  constructor
  · exact ⟨Nat.le_refl 0, by simp [initState]⟩
  intro op s h
  cases op with
  | bwrite v =>
    by_cases hf : RingBase.is_full N s = true
    · have happ : applyAnyOp N (AnyOp.bwrite v) s = s := by
        simp [applyAnyOp, RingBuffer.write, hf]
      rw [happ]
      exact ⟨h, Or.inl rfl, Or.inl rfl⟩
    · have hf' : RingBase.is_full N s = false := by
        revert hf; cases RingBase.is_full N s <;> simp
      have happ : applyAnyOp N (AnyOp.bwrite v) s
          = ⟨s.buff.set (s.head &&& (N - 1)) v, s.head + 1, s.tail⟩ := by
        simp [applyAnyOp, RingBuffer.write, hf']
      rw [happ]
      have := cursorinv_push N hp h1 s h hf'
      exact ⟨⟨this.1, this.2⟩, Or.inr rfl, Or.inl rfl⟩
  | boverwrite v =>
    by_cases hf : RingBase.is_full N s = true
    · have happ : applyAnyOp N (AnyOp.boverwrite v) s
          = ⟨s.buff.set (s.head &&& (N - 1)) v, s.head + 1, s.tail + 1⟩ := by
        simp [applyAnyOp, RingBuffer.overwrite, hf]
      rw [happ]
      have hc := h.1
      have hd := h.2
      exact ⟨⟨by simp; omega, by simp; omega⟩, Or.inr rfl, Or.inr rfl⟩
    · have hf' : RingBase.is_full N s = false := by
        revert hf; cases RingBase.is_full N s <;> simp
      have happ : applyAnyOp N (AnyOp.boverwrite v) s
          = ⟨s.buff.set (s.head &&& (N - 1)) v, s.head + 1, s.tail⟩ := by
        simp [applyAnyOp, RingBuffer.overwrite, hf']
      rw [happ]
      have := cursorinv_push N hp h1 s h hf'
      exact ⟨⟨this.1, this.2⟩, Or.inr rfl, Or.inl rfl⟩
  | bread =>
    by_cases he : RingBase.is_empty N s = true
    · have hc := he
      unfold RingBase.is_empty at hc
      have happ : applyAnyOp N (AnyOp.bread) s = s := by
        simp [applyAnyOp, RingBuffer.read, hc]
      rw [happ]
      exact ⟨h, Or.inl rfl, Or.inl rfl⟩
    · have he' : RingBase.is_empty N s = false := by
        revert he; cases RingBase.is_empty N s <;> simp
      have hc := he'
      unfold RingBase.is_empty at hc
      have happ : applyAnyOp N (AnyOp.bread) s = ⟨s.buff, s.head, s.tail + 1⟩ := by
        simp [applyAnyOp, RingBuffer.read, hc]
      rw [happ]
      have := cursorinv_pop N hp h1 s h he'
      have hd := h.2
      exact ⟨⟨by simp; omega, by simp; omega⟩, Or.inl rfl, Or.inr rfl⟩
  | btry_current => exact ⟨h, Or.inl rfl, Or.inl rfl⟩
  | bcurrent => exact ⟨h, Or.inl rfl, Or.inl rfl⟩
  | qenqueue v =>
    by_cases hf : RingBase.is_full N s = true
    · have hc := hf
      unfold RingBase.is_full at hc
      have happ : applyAnyOp N (AnyOp.qenqueue v) s = s := by
        simp [applyAnyOp, RingQueue.enqueue, hc]
      rw [happ]
      exact ⟨h, Or.inl rfl, Or.inl rfl⟩
    · have hf' : RingBase.is_full N s = false := by
        revert hf; cases RingBase.is_full N s <;> simp
      have hc := hf'
      unfold RingBase.is_full at hc
      have happ : applyAnyOp N (AnyOp.qenqueue v) s
          = ⟨s.buff.set (s.head &&& (N - 1)) v, s.head + 1, s.tail⟩ := by
        simp [applyAnyOp, RingQueue.enqueue, hc]
      rw [happ]
      have := cursorinv_push N hp h1 s h hf'
      exact ⟨⟨this.1, this.2⟩, Or.inr rfl, Or.inl rfl⟩
  | qtry_enqueue v =>
    by_cases hf : RingBase.is_full N s = true
    · have hc := hf
      unfold RingBase.is_full at hc
      have happ : applyAnyOp N (AnyOp.qtry_enqueue v) s = s := by
        simp [applyAnyOp, RingQueue.try_enqueue, hc]
      rw [happ]
      exact ⟨h, Or.inl rfl, Or.inl rfl⟩
    · have hf' : RingBase.is_full N s = false := by
        revert hf; cases RingBase.is_full N s <;> simp
      have hc := hf'
      unfold RingBase.is_full at hc
      have happ : applyAnyOp N (AnyOp.qtry_enqueue v) s
          = ⟨s.buff.set (s.head &&& (N - 1)) v, s.head + 1, s.tail⟩ := by
        simp [applyAnyOp, RingQueue.try_enqueue, hc]
      rw [happ]
      have := cursorinv_push N hp h1 s h hf'
      exact ⟨⟨this.1, this.2⟩, Or.inr rfl, Or.inl rfl⟩
  | qdequeue =>
    by_cases he : RingBase.is_empty N s = true
    · have hc := he
      unfold RingBase.is_empty at hc
      have happ : applyAnyOp N (AnyOp.qdequeue) s = s := by
        simp [applyAnyOp, RingQueue.dequeue, hc]
      rw [happ]
      exact ⟨h, Or.inl rfl, Or.inl rfl⟩
    · have he' : RingBase.is_empty N s = false := by
        revert he; cases RingBase.is_empty N s <;> simp
      have hc := he'
      unfold RingBase.is_empty at hc
      have happ : applyAnyOp N (AnyOp.qdequeue) s = ⟨s.buff, s.head, s.tail + 1⟩ := by
        simp [applyAnyOp, RingQueue.dequeue, hc]
      rw [happ]
      have := cursorinv_pop N hp h1 s h he'
      have hd := h.2
      exact ⟨⟨by simp; omega, by simp; omega⟩, Or.inl rfl, Or.inr rfl⟩
  | qtry_dequeue =>
    by_cases he : RingBase.is_empty N s = true
    · have hc := he
      unfold RingBase.is_empty at hc
      have happ : applyAnyOp N (AnyOp.qtry_dequeue) s = s := by
        simp [applyAnyOp, RingQueue.try_dequeue, hc]
      rw [happ]
      exact ⟨h, Or.inl rfl, Or.inl rfl⟩
    · have he' : RingBase.is_empty N s = false := by
        revert he; cases RingBase.is_empty N s <;> simp
      have hc := he'
      unfold RingBase.is_empty at hc
      have happ : applyAnyOp N (AnyOp.qtry_dequeue) s = ⟨s.buff, s.head, s.tail + 1⟩ := by
        simp [applyAnyOp, RingQueue.try_dequeue, hc]
      rw [happ]
      have := cursorinv_pop N hp h1 s h he'
      have hd := h.2
      exact ⟨⟨by simp; omega, by simp; omega⟩, Or.inl rfl, Or.inr rfl⟩
  | qtry_current => exact ⟨h, Or.inl rfl, Or.inl rfl⟩
  | qcurrent => exact ⟨h, Or.inl rfl, Or.inl rfl⟩
  | qcan_peek amnt => exact ⟨h, Or.inl rfl, Or.inl rfl⟩
  | qtry_peek amnt => exact ⟨h, Or.inl rfl, Or.inl rfl⟩
  | qpeek amnt => exact ⟨h, Or.inl rfl, Or.inl rfl⟩
  | qwake_all => exact ⟨h, Or.inl rfl, Or.inl rfl⟩

theorem cursor_invariant_preserved_witness :
    CursorInv 4 (initState Nat 4) ∧
    (CursorInv 4 (applyAnyOp 4 (AnyOp.bwrite 5) (initState Nat 4)) ∧
     ((applyAnyOp 4 (AnyOp.bwrite 5) (initState Nat 4)).head = (initState Nat 4).head ∨
      (applyAnyOp 4 (AnyOp.bwrite 5) (initState Nat 4)).head = (initState Nat 4).head + 1) ∧
     ((applyAnyOp 4 (AnyOp.bwrite 5) (initState Nat 4)).tail = (initState Nat 4).tail ∨
      (applyAnyOp 4 (AnyOp.bwrite 5) (initState Nat 4)).tail = (initState Nat 4).tail + 1)) :=
  have h := cursor_invariant_preserved (T := Nat) 4 ⟨2, rfl⟩ (by decide)
  ⟨h.1, h.2 (AnyOp.bwrite 5) (initState Nat 4) (by decide)⟩

/-- C8 counterexample: at `amount = capacity` (4), `try_peek` does NOT
trigger its debug assertion: its availability early-return precedes both
asserts, so it yields a normal empty result — refuting the claim that
every one of `can_peek`/`try_peek`/`peek` asserts on an out-of-range
amount (`can_peek`, by contrast, does fail its assertion there). -/
theorem try_peek_no_assert_counterexample :
    RingQueue.try_peek 4 (⟨[1, 2, 3, 0], 3, 0⟩ : State Nat) 4 = Except.ok none ∧
    RingQueue.try_peek 4 (⟨[1, 2, 3, 0], 3, 0⟩ : State Nat) 4 ≠ Except.error () ∧
    RingQueue.can_peek 4 (⟨[1, 2, 3, 0], 3, 0⟩ : State Nat) 4 = Except.error () := by
  refine ⟨rfl, ?_, rfl⟩
  intro h
  exact Except.noConfusion h

/-- C8 amended: for every `amount >= capacity` on any queue state,
`can_peek` and `peek` trigger the debug assertion that the amount is
less than the buffer size, while `try_peek` instead returns an empty
result normally (its early availability return precedes its asserts). -/
theorem peek_assert_amended {T : Type} [Inhabited T] (N : Nat)
    (s : State T) (amnt : Nat) (hge : N ≤ amnt) :
    RingQueue.can_peek N s amnt = Except.error () ∧
    RingQueue.peek N s amnt = Except.error () ∧
    RingQueue.try_peek N s amnt = Except.ok none := by
  have hcp : RingQueue.can_peek N s amnt = Except.error () := by
    simp only [RingQueue.can_peek]
    rw [if_neg (by omega)]
  refine ⟨hcp, ?_, ?_⟩
  · simp only [RingQueue.peek, hcp]
  · have ha : s.head &&& (N - 1) ≤ N - 1 := Nat.and_le_right
    have hb : s.tail &&& (N - 1) ≤ N - 1 := Nat.and_le_right
    have hmax : (if (s.head &&& (N - 1)) ≥ (s.tail &&& (N - 1))
        then (s.head &&& (N - 1)) - (s.tail &&& (N - 1))
        else (N - (s.tail &&& (N - 1))) + (s.head &&& (N - 1))) ≤ amnt := by
      by_cases hx : (s.head &&& (N - 1)) ≥ (s.tail &&& (N - 1))
      · rw [if_pos hx]
        omega
      · rw [if_neg hx]
        omega
    simp only [RingQueue.try_peek]
    rw [if_pos hmax]

theorem peek_assert_amended_witness :
    4 ≤ 4 ∧
    (RingQueue.can_peek 4 (⟨[1, 2, 3, 0], 3, 0⟩ : State Nat) 4 = Except.error () ∧
     RingQueue.peek 4 (⟨[1, 2, 3, 0], 3, 0⟩ : State Nat) 4 = Except.error () ∧
     RingQueue.try_peek 4 (⟨[1, 2, 3, 0], 3, 0⟩ : State Nat) 4 = Except.ok none) :=
  ⟨by decide, peek_assert_amended 4 (⟨[1, 2, 3, 0], 3, 0⟩ : State Nat) 4 (by decide)⟩

/-- C9: evaluation at the failing input. The claim states every blocking
operation re-checks its condition after a wake and only touches storage
and cursors once it holds. The code's `enqueue` and `dequeue` guard with
a single `if` and wait at most once; their continuations after the wait
mutate unconditionally. Concretely: a capacity-4 queue, full
(head = 3, tail = 0) — an `enqueue` woken with the queue still full
(spurious wake or `wake_all`) stores and advances anyway, driving the
cursor difference to 4 > N - 1, breaking the cursor invariant and making
the queue read as empty (all three pending values lost); symmetrically a
`dequeue` woken on a still-empty queue consumes a phantom element,
leaving tail > head. `peek`, whose `while` loop does re-check, is the
only blocking operation matching the claim. -/
theorem enqueue_wake_no_recheck_eval :
    RingBase.is_full 4 (⟨[1, 2, 3, 0], 3, 0⟩ : State Nat) = true ∧
    RingQueue.enqueue_on_wake 4 (⟨[1, 2, 3, 0], 3, 0⟩ : State Nat) 9
      = (⟨[1, 2, 3, 9], 4, 0⟩ : State Nat) ∧
    ¬ CursorInv 4 (RingQueue.enqueue_on_wake 4 (⟨[1, 2, 3, 0], 3, 0⟩ : State Nat) 9) ∧
    RingBase.is_empty 4
      (RingQueue.enqueue_on_wake 4 (⟨[1, 2, 3, 0], 3, 0⟩ : State Nat) 9) = true ∧
    RingBase.is_empty 4 (initState Nat 4) = true ∧
    (RingQueue.dequeue_on_wake 4 (initState Nat 4)).2
      = (⟨[0, 0, 0, 0], 0, 1⟩ : State Nat) ∧
    ¬ CursorInv 4 (RingQueue.dequeue_on_wake 4 (initState Nat 4)).2 := by
  decide

/-- C10: `RingBuffer::read` and `RingQueue::try_dequeue` are the same
state transformer: on identical storage and cursors both return the same
result (`none` on an empty state, otherwise the value at the masked read
cursor) and produce identical cursors and storage; `try_dequeue`'s
additional `notify_all` does not touch the state. -/
theorem read_try_dequeue_equiv {T : Type} [Inhabited T] (N : Nat) (s : State T) :
    RingBuffer.read N s = RingQueue.try_dequeue N s := rfl
